import Mathlib

/-
Shallow embedding of the on-call-agent RAG assistant (TypeScript) in Lean 4.

The embedded code:
  - src/lib/embeddings.ts: generateEmbedding, chunkText, createDocumentChunks, simpleHash
  - src/lib/document-processor.ts: formatDocumentForRAG
  - src/app/api/chat/route.ts (primary, threshold-filtering variant): POST,
    createPromptWithContext, createPromptWithoutContext
  - app/api/chat/prompt.ts: SYSTEM_PROMPT, RAG_INSTRUCTIONS

JavaScript strings are modelled as Lean String values; the JavaScript string
operations used by the code (split(' '), join(' '), join('\n'), trim(),
template literals) are embedded as executable functions on the underlying
character lists.  Numbers that the code only ever compares (similarity
scores) are modelled as rationals; Math.sin is idealised as the real sine
function.  charCodeAt is modelled by the character codepoint (identical for
all characters below 0x10000).
-/

namespace OnCall

/-- The JavaScript whitespace class \s (also used by trim): tab, LF, VT, FF,
CR, space, NBSP, and the Unicode space separators, U+2028, U+2029, U+FEFF. -/
def isJsWhitespace (c : Char) : Bool :=
  let n := c.toNat
  n == 9 || n == 10 || n == 11 || n == 12 || n == 13 || n == 32 ||
  n == 0xa0 || n == 0x1680 || (0x2000 ≤ n && n ≤ 0x200a) ||
  n == 0x2028 || n == 0x2029 || n == 0x202f || n == 0x205f || n == 0x3000 ||
  n == 0xfeff

/-- Split a character list at every occurrence of the separator character,
keeping empty pieces, with an accumulator for the current piece.  This is the
semantics of the JavaScript String.prototype.split with a one-character
separator. -/
def splitChars (sep : Char) : List Char → List Char → List (List Char)
  | [], acc => [acc.reverse]
  | c :: rest, acc =>
    if c = sep then acc.reverse :: splitChars sep rest []
    else splitChars sep rest (c :: acc)

/-- JavaScript text.split(' '). -/
def jsSplitOnSpace (s : String) : List String :=
  (splitChars ' ' s.data []).map fun cs => String.mk cs

/-- JavaScript Array.prototype.join(sep) on an array of strings. -/
def jsJoin (sep : String) : List String → String
  | [] => ""
  | [x] => x
  | x :: y :: xs => x ++ sep ++ jsJoin sep (y :: xs)

/-- JavaScript String.prototype.trim: strip leading and trailing \s. -/
def jsTrim (s : String) : String :=
  String.mk ((s.data.dropWhile isJsWhitespace).reverse.dropWhile isJsWhitespace).reverse

/-- The word-window loop of chunkText (src/lib/embeddings.ts, lines 46-53):
starting at word index i, emit the join of words[i, i+chunkSize) and advance
by step = chunkSize - overlap, stopping after the window that reaches the last
word.  The loop is phrased with explicit fuel; one unit of fuel per word
suffices for every call below because the loop body runs at most once per
word index when step is at least 1.  (When overlap is at least chunkSize the
JavaScript loop never advances and diverges; the model then merely runs out
of fuel.  No claim concerns that caller-contract violation.) -/
def chunkTextLoop (words : List String) (chunkSize step : Nat) : Nat → Nat → List String
  | _, 0 => []
  | i, fuel + 1 =>
    if words.length ≤ i then []
    else
      let chunk := jsJoin " " ((words.drop i).take chunkSize)
      if words.length ≤ i + chunkSize then [chunk]
      else chunk :: chunkTextLoop words chunkSize step (i + step) fuel

/-- Embedding of chunkText (src/lib/embeddings.ts, lines 38-56).  The source
declares default arguments chunkSize = 500, overlap = 50; every call site in
the repository passes them explicitly, and the model takes them explicitly. -/
def chunkText (text : String) (chunkSize : Nat) (overlap : Nat) : List String :=
  let words := jsSplitOnSpace text
  if words.length ≤ chunkSize then [text]
  else chunkTextLoop words chunkSize (chunkSize - overlap) 0 words.length

/-- Specification companion of chunkTextLoop: the same loop returning the
word windows themselves instead of their joins. -/
def wordWindows (words : List String) (chunkSize step : Nat) : Nat → Nat → List (List String)
  | _, 0 => []
  | i, fuel + 1 =>
    if words.length ≤ i then []
    else
      let w := (words.drop i).take chunkSize
      if words.length ≤ i + chunkSize then [w]
      else w :: wordWindows words chunkSize step (i + step) fuel

/-- Metadata record of a DocumentChunk (src/lib/embeddings.ts, lines 61-67).
The source field named section is called sectionTitle here because section is
a Lean keyword. -/
structure DocumentChunkMetadata where
  filename : String
  title : String
  sectionTitle : Option String
  chunkIndex : Nat
  totalChunks : Nat
deriving DecidableEq, Repr

/-- Embedding of the DocumentChunk interface (src/lib/embeddings.ts). -/
structure DocumentChunk where
  id : String
  content : String
  metadata : DocumentChunkMetadata
deriving DecidableEq, Repr

/-- The chunk id template literal of createDocumentChunks, line 89:
filename_sectionIndex_chunkIndex. -/
def chunkId (filename : String) (sectionIndex chunkIndex : Nat) : String :=
  filename ++ "_" ++ toString sectionIndex ++ "_" ++ toString chunkIndex

/-- Cut a character list into units after every newline character; every unit
except the last ends with the newline that closed it.  Used to model the
multiline lookahead split of createDocumentChunks, line 76. -/
def lineUnitsAux : List Char → List Char → List (List Char)
  | [], acc => [acc.reverse]
  | c :: rest, acc =>
    if c = '\n' then (acc.reverse ++ ['\n']) :: lineUnitsAux rest []
    else lineUnitsAux rest (c :: acc)

/-- Does the regex #{1,3}\s match at the start of a line?  k counts the
hashes consumed so far; hasNL records whether a newline follows the line, in
which case \s may match that newline.  A fourth hash, or a non-whitespace
character after the hashes, means no match (backtracking to fewer hashes
always faces the next hash, so no alternative matches either). -/
def headerAux : List Char → Nat → Bool → Bool
  | [], k, hasNL => decide (1 ≤ k) && hasNL
  | c :: rest, k, hasNL =>
    if c = '#' then
      if k < 3 then headerAux rest (k + 1) hasNL else false
    else decide (1 ≤ k) && isJsWhitespace c

/-- Does a line unit (with its trailing newline, if any) open a markdown
header section, in the sense of the split regex (?=^#{1,3}\s)? -/
def headerUnit (u : List Char) : Bool :=
  match u.getLast? with
  | some c => if c = '\n' then headerAux u.dropLast 0 true else headerAux u 0 false
  | none => false

/-- Group line units into sections: each unit that opens a header starts a
new section; a zero-width match at position 0 produces no empty leading
piece, which the accumulator-first phrasing reproduces. -/
def groupAux : List (List Char) → List Char → List (List Char)
  | [], acc => [acc]
  | u :: rest, acc =>
    if headerUnit u then acc :: groupAux rest u else groupAux rest (acc ++ u)

/-- Embedding of content.split with the lookahead regex (?=^#{1,3}\s) and the
m flag (createDocumentChunks, line 76): split before every line that begins a
level 1-3 markdown header. -/
def splitSections (content : String) : List String :=
  match lineUnitsAux content.data [] with
  | [] => []
  | u :: rest => (groupAux rest u).map fun cs => String.mk cs

/-- Match the section-title regex ^(#{1,3})\s+(.+) against one line: one to
three hashes, at least one whitespace character, then the nonempty remainder
of the line, which is capture group 2.  (The rare backtracking case in which
\s+ spans a newline or gives back its final character is not modelled; no
claim depends on the extracted title.) -/
def titleTail : List Char → Nat → Option (List Char)
  | [], _ => none
  | c :: rest, k =>
    if c = '#' then
      if k < 3 then titleTail rest (k + 1) else none
    else if decide (1 ≤ k) && isJsWhitespace c then
      let after := rest.dropWhile fun a => isJsWhitespace a
      if after.isEmpty then none else some after
    else none

/-- First line of the section on which the section-title regex matches. -/
def firstTitle : List (List Char) → Option (List Char)
  | [] => none
  | ln :: rest =>
    match titleTail ln 0 with
    | some t => some t
    | none => firstTitle rest

/-- The sectionTitle extraction of createDocumentChunks, lines 80-81:
match the header regex and trim capture group 2. -/
def sectionTitleOf (sec : String) : Option String :=
  (firstTitle (splitChars '\n' sec.data [])).map fun cs => jsTrim (String.mk cs)

/-- The inner forEach of createDocumentChunks, lines 86-100: push one
DocumentChunk per nonempty-after-trim text chunk.  chunkIndex is the index in
the section's chunk list (used in the id); the metadata chunkIndex field is
the running global count chunks.length at push time, and totalChunks is the
provisional 0. -/
def pushChunks (filename title : String) (sectionTitle : Option String) (sectionIndex : Nat) :
    List String → Nat → List DocumentChunk → List DocumentChunk
  | [], _, acc => acc
  | c :: rest, chunkIndex, acc =>
    let acc' :=
      if 0 < (jsTrim c).length then
        acc ++ [⟨chunkId filename sectionIndex chunkIndex, c,
                 ⟨filename, title, sectionTitle, acc.length, 0⟩⟩]
      else acc
    pushChunks filename title sectionTitle sectionIndex rest (chunkIndex + 1) acc'

/-- The outer forEach of createDocumentChunks, lines 79-101: chunk every
section (trimmed) with chunkText 500 50. -/
def buildSections (filename title : String) : List String → Nat → List DocumentChunk → List DocumentChunk
  | [], _, acc => acc
  | s :: rest, sectionIndex, acc =>
    buildSections filename title rest (sectionIndex + 1)
      (pushChunks filename title (sectionTitleOf s) sectionIndex
        (chunkText (jsTrim s) 500 50) 0 acc)

/-- Embedding of createDocumentChunks (src/lib/embeddings.ts, lines 70-109):
two passes, first building the chunks with totalChunks = 0, then setting
totalChunks on every chunk to the final count. -/
def createDocumentChunks (content filename title : String) : List DocumentChunk :=
  let chunks := buildSections filename title (splitSections content) 0 []
  chunks.map fun ch =>
    ⟨ch.id, ch.content,
      ⟨ch.metadata.filename, ch.metadata.title, ch.metadata.sectionTitle,
        ch.metadata.chunkIndex, chunks.length⟩⟩

/-- The (section ordinal, intra-section chunk ordinal) pairs of the chunks a
single section contributes, mirroring the filter in pushChunks.  A function
of the section text alone. -/
def opChunks : List String → Nat → Nat → List (Nat × Nat)
  | [], _, _ => []
  | c :: rest, sectionIndex, chunkIndex =>
    (if 0 < (jsTrim c).length then [(sectionIndex, chunkIndex)] else []) ++
      opChunks rest sectionIndex (chunkIndex + 1)

/-- The ordinal pairs of all sections, mirroring buildSections. -/
def opSections : List String → Nat → List (Nat × Nat)
  | [], _ => []
  | s :: rest, sectionIndex =>
    opChunks (chunkText (jsTrim s) 500 50) sectionIndex 0 ++
      opSections rest (sectionIndex + 1)

/-- The ordinal pairs of a document: a function of the content alone; the id
sequence of createDocumentChunks is obtained from it and the filename. -/
def ordinalPairs (content : String) : List (Nat × Nat) :=
  opSections (splitSections content) 0

/-- Metadata of a vector-store search result (src/lib/vector-store.ts,
SearchResult; also the element shape formatDocumentForRAG takes).  The source
field named section is called sectionTitle here because section is a Lean
keyword. -/
structure SearchResultMetadata where
  filename : String
  title : String
  content : String
  sectionTitle : Option String
  chunkIndex : Nat
  totalChunks : Nat
deriving DecidableEq, Repr

/-- Embedding of SearchResult (src/lib/vector-store.ts).  The similarity
score, a JavaScript number that the code only compares against the fixed
threshold, is modelled as a rational. -/
structure SearchResult where
  id : String
  score : ℚ
  metadata : SearchResultMetadata
deriving DecidableEq, Repr

/-- The fixed preamble of formatDocumentForRAG, line 199. -/
def RAG_PREAMBLE : String := "Based on the following incident response documentation:\n\n"

/-- One iteration of the forEach in formatDocumentForRAG, lines 201-209. -/
def ragEntry (r : SearchResult) (index : Nat) : String :=
  "## Document " ++ toString (index + 1) ++ ": " ++ r.metadata.title ++ "\n" ++
    (match r.metadata.sectionTitle with
     | some s => "### " ++ s ++ "\n"
     | none => "") ++
    r.metadata.content ++ "\n\n" ++
    "*Source: " ++ r.metadata.filename ++ "*\n\n"

/-- The accumulation of formatDocumentForRAG over the result list with its
running index. -/
def ragLoop : List SearchResult → Nat → String
  | [], _ => ""
  | r :: rest, i => ragEntry r i ++ ragLoop rest (i + 1)

/-- Embedding of formatDocumentForRAG (src/lib/document-processor.ts, lines
184-212). -/
def formatDocumentForRAG (searchResults : List SearchResult) : String :=
  if searchResults.length = 0 then "" else RAG_PREAMBLE ++ ragLoop searchResults 0

/-- A list of strings occurs, in order, as disjoint substrings of s. -/
def OrderedSub : List String → String → Prop
  | [], _ => True
  | x :: xs, s => ∃ pre post, s = pre ++ x ++ post ∧ OrderedSub xs post

/-- The fragments of one search result that the formatted context must
contain, in order: the title, the section heading when the section field is
present, the verbatim chunk content, and the filename inside its source
marker. -/
def piecesOf (r : SearchResult) : List String :=
  [r.metadata.title] ++
    (match r.metadata.sectionTitle with
     | some s => ["### " ++ s]
     | none => []) ++
    [r.metadata.content, "*Source: " ++ r.metadata.filename]

/-- Embedding of the Source citation shape {filename, title, section?}
returned by the chat route.  The source field named section is called
sectionTitle here because section is a Lean keyword. -/
structure SourceCitation where
  filename : String
  title : String
  sectionTitle : Option String
deriving DecidableEq, Repr

/-- The three response shapes of the chat POST handler: 400 with an error
body, 200 with the model text and optional sources, 500 with an error
body. -/
inductive ChatResponse where
  | badRequest (error : String)
  | ok (response : String) (sources : Option (List SourceCitation))
  | serverError (error : String)
deriving DecidableEq, Repr

/-- The sources field of a response, when the response is a 200. -/
def ChatResponse.sourcesOf : ChatResponse → Option (List SourceCitation)
  | .ok _ sources => sources
  | _ => none

/-- SIMILARITY_THRESHOLD (src/app/api/chat/route.ts, line 10).  The source
literal is 0.5; it is written mkRat 1 2 so that comparisons against it reduce
inside the kernel, and proved equal to (0.5 : ℚ) below. -/
def SIMILARITY_THRESHOLD : ℚ := mkRat 1 2

/-- SYSTEM_PROMPT (app/api/chat/prompt.ts), verbatim. -/
def SYSTEM_PROMPT : String :=
  "You are an on-call incident response assistant with access to a knowledge base of incident response procedures (KMAs - Knowledge Management Articles). Your role is to help engineers resolve system incidents by providing accurate, step-by-step guidance based on documented procedures.\n\nWhen responding to incident-related queries:\n1. Always search your knowledge base first for relevant incident response procedures\n2. Provide specific, actionable steps from the documented procedures\n3. Include relevant system information (severity levels, alert thresholds, etc.)\n4. Reference the source documents for verification\n5. If no relevant documentation is found, clearly state this and provide general guidance\n\nBe concise, accurate, and focus on getting incidents resolved quickly. Always prioritize safety and following established procedures."

/-- RAG_INSTRUCTIONS (app/api/chat/prompt.ts), verbatim. -/
def RAG_INSTRUCTIONS : String :=
  "Please provide a helpful response based on the above documentation. If the documentation is relevant, reference it in your answer. If not relevant, provide general assistance but mention that no specific incident procedures were found."

/-- The fixed no-context note of createPromptWithoutContext, line 94. -/
def NO_CONTEXT_INSTRUCTIONS : String :=
  "Note: No relevant incident response procedures were found in the knowledge base. Please provide general assistance."

/-- Embedding of createPromptWithContext (route.ts, lines 77-89). -/
def createPromptWithContext (context message : String) : String :=
  let userQuestionLabel := "User Question:"
  jsJoin "\n" [SYSTEM_PROMPT, "", context, "", userQuestionLabel ++ " " ++ message, "",
    RAG_INSTRUCTIONS]

/-- Embedding of createPromptWithoutContext (route.ts, lines 92-103). -/
def createPromptWithoutContext (message : String) : String :=
  let userQuestionLabel := "User Question:"
  jsJoin "\n" [SYSTEM_PROMPT, "", userQuestionLabel ++ " " ++ message, "",
    NO_CONTEXT_INSTRUCTIONS]

/-- Embedding of the chat POST handler, primary threshold-filtering variant
(src/app/api/chat/route.ts, lines 12-74).  The parsed request body is an
optional message string (absent field = none); the outcome of the
searchSimilar call and the behaviour of the generateText call are passed in
as data, since both are external services.  A thrown search error is caught:
the handler continues with empty context and sources, exactly as the inner
try/catch does.  A generateText error reaches the outer catch and produces
the 500 response. -/
def chatPOST (messageField : Option String)
    (searchOutcome : Except String (List SearchResult))
    (llm : String → Except String String) : ChatResponse :=
  match messageField with
  | none => .badRequest "Message is required"
  | some message =>
    if message = "" then .badRequest "Message is required"
    else
      let searchResults : List SearchResult :=
        match searchOutcome with
        | .ok rs => rs
        | .error _ => []
      let relevantResults := searchResults.filter fun r => SIMILARITY_THRESHOLD ≤ r.score
      let context :=
        if 0 < relevantResults.length then formatDocumentForRAG relevantResults else ""
      let sources : List SourceCitation :=
        if 0 < relevantResults.length then
          relevantResults.map fun r =>
            ⟨r.metadata.filename, r.metadata.title, r.metadata.sectionTitle⟩
        else []
      let enhancedPrompt :=
        if context ≠ "" then createPromptWithContext context message
        else createPromptWithoutContext message
      match llm enhancedPrompt with
      | .error _ => .serverError "Failed to generate response"
      | .ok text => .ok text (if 0 < sources.length then some sources else none)

/-- Wrap of a JavaScript number to a signed 32-bit integer (the effect of the
bitwise operations in simpleHash). -/
def toInt32 (n : ℤ) : ℤ := (n + 2 ^ 31) % 2 ^ 32 - 2 ^ 31

/-- One iteration of simpleHash (src/lib/embeddings.ts, lines 113-117):
hash = ((hash << 5) - hash) + char, truncated by hash = hash & hash.  The
shift truncates to 32 bits on its own; the subtraction and addition are exact
double-precision arithmetic, truncated by the final & operation. -/
def simpleHashStep (hash : ℤ) (c : Nat) : ℤ :=
  toInt32 (toInt32 (hash * 32) - hash + c)

/-- Embedding of simpleHash (src/lib/embeddings.ts, lines 111-119).
charCodeAt is modelled by the codepoint, identical for all characters below
0x10000. -/
def simpleHash (s : String) : Nat :=
  (s.data.foldl (fun hash c => simpleHashStep hash c.toNat) 0).natAbs

/-- Embedding of the hash-based generateEmbedding (src/lib/embeddings.ts,
lines 7-25): 384 entries, entry i being (sin(hash + i) + 1) / 2.  Math.sin
on doubles is idealised as the real sine function. -/
noncomputable def generateEmbedding (text : String) : List ℝ :=
  (List.range 384).map fun i : ℕ => (Real.sin ((simpleHash text : ℝ) + (i : ℝ)) + 1) / 2

/-- Numeric value of a decimal digit character. -/
def digitVal (c : Char) : Nat := c.toNat - 48

/-- Numeric value of a decimal digit string, most significant first. -/
def digitsVal (l : List Char) : Nat := l.foldl (fun a c => 10 * a + digitVal c) 0

/-- The written form of the source threshold literal 0.5 equals the model's
SIMILARITY_THRESHOLD. -/
theorem SIMILARITY_THRESHOLD_eq : SIMILARITY_THRESHOLD = (0.5 : ℚ) := by
  norm_num [SIMILARITY_THRESHOLD, mkRat]

/-- Claim C3, counterexample: chunkText on an input with word count at most
chunkSize returns the input verbatim, not the trimmed input; on the
two-word input consisting of a space and the letter a (word count 2, at most
chunkSize 3) the single returned chunk keeps its leading space, so it differs
from the trimmed input. -/
theorem chunkText_small_not_trimmed : ¬ chunkText " a" 3 1 = [jsTrim " a"] := by
  decide

/-- Claim C3, amended: for every input text whose word count (splitting on
single spaces) is at most chunkSize, chunkText returns exactly one chunk, and
that chunk is the input text verbatim (equal to the trimmed input exactly
when the input is already trimmed, as at every call site, which trims the
section before calling). -/
theorem chunkText_small_returns_input (text : String) (chunkSize overlap : Nat)
    (h : (jsSplitOnSpace text).length ≤ chunkSize) :
    chunkText text chunkSize overlap = [text] := by
  simp [chunkText, h]

/-- Witness for the amended claim C3 at a concrete input. -/
theorem chunkText_small_returns_input_witness :
    (jsSplitOnSpace "restart the database").length ≤ 500 ∧
      chunkText "restart the database" 500 50 = ["restart the database"] :=
  ⟨by decide, chunkText_small_returns_input "restart the database" 500 50 (by decide)⟩

/-- Claim C4: every chunk returned by createDocumentChunks carries
metadata.totalChunks equal to the length of the returned list; the field is
back-filled uniformly after the first pass, so no returned chunk retains the
provisional value 0 unless the list itself is empty. -/
theorem createDocumentChunks_totalChunks_eq_length (content filename title : String)
    (ch : DocumentChunk) (hmem : ch ∈ createDocumentChunks content filename title) :
    ch.metadata.totalChunks = (createDocumentChunks content filename title).length := by
  simp only [createDocumentChunks, List.mem_map] at hmem
  obtain ⟨ch₀, _, rfl⟩ := hmem
  simp [createDocumentChunks]

/-- Witness for claim C4 at a concrete document. -/
theorem createDocumentChunks_totalChunks_eq_length_witness :
    (⟨"f.md_0_0", "hello", ⟨"f.md", "T", none, 0, 1⟩⟩ : DocumentChunk) ∈
        createDocumentChunks "hello" "f.md" "T" ∧
      (⟨"f.md_0_0", "hello", ⟨"f.md", "T", none, 0, 1⟩⟩ : DocumentChunk).metadata.totalChunks =
        (createDocumentChunks "hello" "f.md" "T").length :=
  ⟨by decide, createDocumentChunks_totalChunks_eq_length "hello" "f.md" "T" _ (by decide)⟩

/-- Claim C7: a chat POST whose body lacks the message field, or carries the
empty string as message, yields the 400 response with the error body, for
every search outcome and every language-model behaviour (so neither service
can influence the response: no search and no model call is performed); and
with a non-empty message the 400 branch is never taken. -/
theorem chatPOST_message_validation :
    (∀ s llm, chatPOST none s llm = ChatResponse.badRequest "Message is required") ∧
      (∀ s llm, chatPOST (some "") s llm = ChatResponse.badRequest "Message is required") ∧
      ∀ m, m ≠ "" → ∀ s llm e, chatPOST (some m) s llm ≠ ChatResponse.badRequest e := by
  refine ⟨fun _ _ => rfl, fun _ _ => rfl, fun m hm s llm e => ?_⟩
  simp only [chatPOST, if_neg hm]
  split <;> simp

/-- Witness for claim C7 at concrete requests. -/
theorem chatPOST_message_validation_witness :
    chatPOST none (Except.ok []) (fun _ => Except.ok "answer") =
        ChatResponse.badRequest "Message is required" ∧
      chatPOST (some "") (Except.ok []) (fun _ => Except.ok "answer") =
        ChatResponse.badRequest "Message is required" ∧
      ("help" ≠ "" ∧
        chatPOST (some "help") (Except.ok []) (fun _ => Except.ok "answer") ≠
          ChatResponse.badRequest "oops") :=
  ⟨chatPOST_message_validation.1 _ _, chatPOST_message_validation.2.1 _ _, by decide,
    chatPOST_message_validation.2.2 "help" (by decide) _ _ "oops"⟩

/-- Claim C8: when the vector-store search raises an error and the message is
non-empty, the handler swallows the error, calls the language model with the
no-context prompt createPromptWithoutContext (system instructions, the user
question, and the fixed note that no procedures were found), and returns the
200 response carrying the model text and no sources field. -/
theorem chatPOST_search_error_fallback (m e : String) (hm : m ≠ "") (llm : String → String) :
    chatPOST (some m) (Except.error e) (fun p => Except.ok (llm p)) =
      ChatResponse.ok (llm (createPromptWithoutContext m)) none := by
  simp only [chatPOST, if_neg hm]
  rfl

/-- Witness for claim C8 at a concrete request. -/
theorem chatPOST_search_error_fallback_witness :
    "why" ≠ "" ∧
      chatPOST (some "why") (Except.error "boom") (fun p => Except.ok ("model: " ++ p)) =
        ChatResponse.ok ("model: " ++ createPromptWithoutContext "why") none :=
  ⟨by decide, chatPOST_search_error_fallback "why" "boom" (by decide) fun p => "model: " ++ p⟩

/-- Claim C9: the hash-based generateEmbedding returns exactly 384 entries,
entry i being (sin(hash + i) + 1) / 2 for the 32-bit rolling hash of the
text, so every entry lies in the closed interval from 0 to 1.  Math.sin on
doubles is idealised as the real sine function. -/
theorem generateEmbedding_spec (text : String) (i : Nat) (h : i < 384) :
    (generateEmbedding text).length = 384 ∧
      (generateEmbedding text)[i]? =
        some ((Real.sin ((simpleHash text : ℝ) + i) + 1) / 2) ∧
      ∀ x : ℝ, (generateEmbedding text)[i]? = some x → 0 ≤ x ∧ x ≤ 1 := by
  have hget : (generateEmbedding text)[i]? =
      some ((Real.sin ((simpleHash text : ℝ) + i) + 1) / 2) := by
    simp only [generateEmbedding, List.getElem?_map, List.getElem?_range h, Option.map_some']
  refine ⟨by simp only [generateEmbedding, List.length_map, List.length_range], hget, ?_⟩
  intro x hx
  rw [hget] at hx
  injection hx with hx
  subst hx
  have h1 := Real.neg_one_le_sin ((simpleHash text : ℝ) + i)
  have h2 := Real.sin_le_one ((simpleHash text : ℝ) + i)
  constructor <;> linarith

/-- Witness for claim C9 at a concrete text and index. -/
theorem generateEmbedding_spec_witness :
    (0 : Nat) < 384 ∧
      ((generateEmbedding "database alert").length = 384 ∧
        (generateEmbedding "database alert")[0]? =
          some ((Real.sin ((simpleHash "database alert" : ℝ) + ((0 : ℕ) : ℝ)) + 1) / 2) ∧
        ∀ x : ℝ, (generateEmbedding "database alert")[0]? = some x → 0 ≤ x ∧ x ≤ 1) :=
  ⟨by decide, generateEmbedding_spec "database alert" 0 (by decide)⟩

/-- A filter is nonempty exactly when some element satisfies the predicate
(specialised to the similarity threshold). -/
theorem filter_threshold_pos_iff (rs : List SearchResult) :
    0 < (rs.filter fun r => SIMILARITY_THRESHOLD ≤ r.score).length ↔
      ∃ r ∈ rs, SIMILARITY_THRESHOLD ≤ r.score := by
  rw [List.length_pos]
  constructor
  · intro hne
    obtain ⟨r, hr⟩ := List.exists_mem_of_ne_nil _ hne
    have := List.mem_filter.mp hr
    exact ⟨r, this.1, by simpa using this.2⟩
  · rintro ⟨r, hr, hscore⟩
    exact List.ne_nil_of_mem (List.mem_filter.mpr ⟨hr, by simpa using hscore⟩)

/-- Claim C2: in the primary threshold-filtering chat handler, when search
succeeds and the model call succeeds, the 200 response has a sources field
exactly when some search result scores at least the 0.5 threshold, and the
sources are then exactly the surviving results, projected to the citation
shape, in result order. -/
theorem chatPOST_sources_threshold (m : String) (hm : m ≠ "") (rs : List SearchResult)
    (llm : String → String) :
    ((chatPOST (some m) (Except.ok rs) fun p => Except.ok (llm p)).sourcesOf ≠ none ↔
      ∃ r ∈ rs, SIMILARITY_THRESHOLD ≤ r.score) ∧
    ∀ srcs,
      (chatPOST (some m) (Except.ok rs) fun p => Except.ok (llm p)).sourcesOf = some srcs →
      srcs = (rs.filter fun r => SIMILARITY_THRESHOLD ≤ r.score).map fun r =>
        (⟨r.metadata.filename, r.metadata.title, r.metadata.sectionTitle⟩ : SourceCitation) := by
  have hres : (chatPOST (some m) (Except.ok rs) fun p => Except.ok (llm p)).sourcesOf =
      if 0 < (rs.filter fun r => SIMILARITY_THRESHOLD ≤ r.score).length then
        some ((rs.filter fun r => SIMILARITY_THRESHOLD ≤ r.score).map fun r =>
          (⟨r.metadata.filename, r.metadata.title, r.metadata.sectionTitle⟩ : SourceCitation))
      else none := by
    simp only [chatPOST, if_neg hm]
    by_cases hrel : 0 < (rs.filter fun r => SIMILARITY_THRESHOLD ≤ r.score).length
    · simp [hrel, ChatResponse.sourcesOf]
    · simp [hrel, ChatResponse.sourcesOf]
  constructor
  · rw [hres]
    by_cases hrel : 0 < (rs.filter fun r => SIMILARITY_THRESHOLD ≤ r.score).length
    · rw [if_pos hrel]
      exact iff_of_true (by simp) ((filter_threshold_pos_iff rs).mp hrel)
    · rw [if_neg hrel]
      exact iff_of_false (by simp) fun hex => hrel ((filter_threshold_pos_iff rs).mpr hex)
  · intro srcs hsrcs
    rw [hres] at hsrcs
    by_cases hrel : 0 < (rs.filter fun r => SIMILARITY_THRESHOLD ≤ r.score).length
    · rw [if_pos hrel] at hsrcs
      injection hsrcs with hsrcs
      exact hsrcs.symm
    · rw [if_neg hrel] at hsrcs
      cases hsrcs

/-- Witness for claim C2 at a concrete request: one result above threshold
and one below. -/
theorem chatPOST_sources_threshold_witness :
    "help" ≠ "" ∧
      (((chatPOST (some "help")
            (Except.ok
              [⟨"id0", 1, ⟨"db.md", "DB Alert", "Restart the database.", some "Steps", 0, 2⟩⟩,
               ⟨"id1", 0, ⟨"db.md", "DB Alert", "More text.", none, 1, 2⟩⟩])
            fun p => Except.ok (p ++ " done")).sourcesOf ≠ none ↔
          ∃ r ∈ [(⟨"id0", 1, ⟨"db.md", "DB Alert", "Restart the database.", some "Steps", 0,
                    2⟩⟩ : SearchResult),
                 ⟨"id1", 0, ⟨"db.md", "DB Alert", "More text.", none, 1, 2⟩⟩],
            SIMILARITY_THRESHOLD ≤ r.score) ∧
        ∀ srcs,
          (chatPOST (some "help")
              (Except.ok
                [⟨"id0", 1, ⟨"db.md", "DB Alert", "Restart the database.", some "Steps", 0, 2⟩⟩,
                 ⟨"id1", 0, ⟨"db.md", "DB Alert", "More text.", none, 1, 2⟩⟩])
              fun p => Except.ok (p ++ " done")).sourcesOf = some srcs →
          srcs = ([(⟨"id0", 1, ⟨"db.md", "DB Alert", "Restart the database.", some "Steps", 0,
                      2⟩⟩ : SearchResult),
                   ⟨"id1", 0, ⟨"db.md", "DB Alert", "More text.", none, 1, 2⟩⟩].filter fun r =>
                    SIMILARITY_THRESHOLD ≤ r.score).map fun r =>
            (⟨r.metadata.filename, r.metadata.title, r.metadata.sectionTitle⟩ : SourceCitation)) :=
  ⟨by decide, chatPOST_sources_threshold "help" (by decide) _ fun p => p ++ " done"⟩

/-- An ordered-substring decomposition survives prefixing the target. -/
theorem OrderedSub.prepend (l : List String) (pre s : String) (h : OrderedSub l s) :
    OrderedSub l (pre ++ s) := by
  cases l with
  | nil => trivial
  | cons x xs =>
    obtain ⟨p, q, hpq, h2⟩ := h
    exact ⟨pre ++ p, q, by rw [hpq]; simp [String.append_assoc], h2⟩

/-- One formatter entry contains its result's pieces in order, before any
continuation of the output. -/
theorem OrderedSub.ragEntry (r : SearchResult) (i : Nat) (l2 : List String) (s2 : String)
    (h : OrderedSub l2 s2) : OrderedSub (piecesOf r ++ l2) (OnCall.ragEntry r i ++ s2) := by
  cases hsec : r.metadata.sectionTitle with
  | none =>
    simp only [piecesOf, OnCall.ragEntry, hsec, List.cons_append, List.nil_append,
      String.append_empty, OrderedSub]
    refine ⟨"## Document " ++ toString (i + 1) ++ ": ",
      "\n" ++ r.metadata.content ++ "\n\n" ++ "*Source: " ++ r.metadata.filename ++ "*\n\n" ++ s2,
      by simp only [String.append_assoc, String.append_empty, String.empty_append], "\n",
      "\n\n" ++ "*Source: " ++ r.metadata.filename ++ "*\n\n" ++ s2,
      by simp only [String.append_assoc, String.append_empty, String.empty_append], "\n\n", "*\n\n" ++ s2,
      by simp only [String.append_assoc, String.append_empty, String.empty_append], OrderedSub.prepend l2 "*\n\n" s2 h⟩
  | some sec =>
    simp only [piecesOf, OnCall.ragEntry, hsec, List.cons_append, List.nil_append, OrderedSub]
    refine ⟨"## Document " ++ toString (i + 1) ++ ": ",
      "\n" ++ ("### " ++ sec ++ "\n") ++ r.metadata.content ++ "\n\n" ++ "*Source: " ++
        r.metadata.filename ++ "*\n\n" ++ s2,
      by simp only [String.append_assoc, String.append_empty, String.empty_append], "\n",
      "\n" ++ r.metadata.content ++ "\n\n" ++ "*Source: " ++ r.metadata.filename ++ "*\n\n" ++ s2,
      by simp only [String.append_assoc, String.append_empty, String.empty_append], "\n",
      "\n\n" ++ "*Source: " ++ r.metadata.filename ++ "*\n\n" ++ s2,
      by simp only [String.append_assoc, String.append_empty, String.empty_append], "\n\n", "*\n\n" ++ s2,
      by simp only [String.append_assoc, String.append_empty, String.empty_append], OrderedSub.prepend l2 "*\n\n" s2 h⟩

/-- The formatter loop contains the pieces of all its results in order. -/
theorem ragLoop_orderedSub : ∀ (rs : List SearchResult) (i : Nat),
    OrderedSub (rs.map piecesOf).flatten (ragLoop rs i) := by
  intro rs
  induction rs with
  | nil => intro i; trivial
  | cons r rest ih =>
    intro i
    simp only [List.map_cons, List.flatten_cons, ragLoop]
    exact OrderedSub.ragEntry r i _ _ (ih (i + 1))

/-- Claim C6: formatDocumentForRAG returns the empty string on the empty
list; on a non-empty list it begins with the fixed preamble and contains,
for each input result in input order, the result's title, its section
heading when the section field is present, the verbatim chunk content, and
its filename inside the source marker. -/
theorem formatDocumentForRAG_spec (rs : List SearchResult) (hne : rs ≠ []) :
    formatDocumentForRAG [] = "" ∧
      (∃ rest, formatDocumentForRAG rs = RAG_PREAMBLE ++ rest) ∧
      OrderedSub (rs.map piecesOf).flatten (formatDocumentForRAG rs) := by
  have hlen : ¬ rs.length = 0 := by simpa using hne
  refine ⟨rfl, ⟨ragLoop rs 0, by simp [formatDocumentForRAG, hlen]⟩, ?_⟩
  rw [formatDocumentForRAG, if_neg hlen]
  exact OrderedSub.prepend _ RAG_PREAMBLE _ (ragLoop_orderedSub rs 0)

/-- Witness for claim C6 at a concrete result list. -/
theorem formatDocumentForRAG_spec_witness :
    ([(⟨"id0", 1, ⟨"db.md", "DB Alert", "Restart the database.", some "Steps", 0,
        1⟩⟩ : SearchResult)] ≠ []) ∧
      (formatDocumentForRAG [] = "" ∧
        (∃ rest,
          formatDocumentForRAG
              [⟨"id0", 1, ⟨"db.md", "DB Alert", "Restart the database.", some "Steps", 0, 1⟩⟩] =
            RAG_PREAMBLE ++ rest) ∧
        OrderedSub
          ([(⟨"id0", 1, ⟨"db.md", "DB Alert", "Restart the database.", some "Steps", 0,
              1⟩⟩ : SearchResult)].map piecesOf).flatten
          (formatDocumentForRAG
            [⟨"id0", 1, ⟨"db.md", "DB Alert", "Restart the database.", some "Steps", 0, 1⟩⟩])) :=
  ⟨by simp, formatDocumentForRAG_spec _ (by simp)⟩

/-- Decimal digit characters decode to their values. -/
theorem digitVal_digitChar : ∀ m < 10, digitVal (Nat.digitChar m) = m := by decide

/-- Decimal digit characters are never the underscore. -/
theorem digitChar_ne_underscore : ∀ m < 10, Nat.digitChar m ≠ '_' := by decide

/-- The digit accumulator of Nat.toDigitsCore prepends to its third argument. -/
theorem toDigitsCore_shift : ∀ (n f : Nat) (ds : List Char), n < f →
    Nat.toDigitsCore 10 f n ds = Nat.toDigitsCore 10 f n [] ++ ds := by
  intro n
  induction n using Nat.strong_induction_on with
  | _ n ih =>
    intro f ds hf
    obtain ⟨f', rfl⟩ : ∃ f', f = f' + 1 := ⟨f - 1, by omega⟩
    simp only [Nat.toDigitsCore]
    by_cases h0 : n / 10 = 0
    · simp [h0]
    · rw [if_neg h0, if_neg h0]
      have hn : 0 < n := by
        rcases Nat.eq_zero_or_pos n with h | h
        · subst h; simp at h0
        · exact h
      have hdiv : n / 10 < n := Nat.div_lt_self hn (by omega)
      rw [ih (n / 10) hdiv f' (Nat.digitChar (n % 10) :: ds) (by omega),
        ih (n / 10) hdiv f' [Nat.digitChar (n % 10)] (by omega)]
      simp

/-- Nat.toDigitsCore does not depend on the fuel, once the fuel exceeds the
number. -/
theorem toDigitsCore_fuel : ∀ (n f g : Nat) (ds : List Char), n < f → n < g →
    Nat.toDigitsCore 10 f n ds = Nat.toDigitsCore 10 g n ds := by
  intro n
  induction n using Nat.strong_induction_on with
  | _ n ih =>
    intro f g ds hf hg
    obtain ⟨f', rfl⟩ : ∃ f', f = f' + 1 := ⟨f - 1, by omega⟩
    obtain ⟨g', rfl⟩ : ∃ g', g = g' + 1 := ⟨g - 1, by omega⟩
    simp only [Nat.toDigitsCore]
    by_cases h0 : n / 10 = 0
    · simp [h0]
    · rw [if_neg h0, if_neg h0]
      have hn : 0 < n := by
        rcases Nat.eq_zero_or_pos n with h | h
        · subst h; simp at h0
        · exact h
      have hdiv : n / 10 < n := Nat.div_lt_self hn (by omega)
      exact ih (n / 10) hdiv f' g' _ (by omega) (by omega)

/-- Decoding the decimal digits of n recovers n. -/
theorem digitsVal_toDigitsCore : ∀ (n f : Nat), n < f →
    digitsVal (Nat.toDigitsCore 10 f n []) = n := by
  intro n
  induction n using Nat.strong_induction_on with
  | _ n ih =>
    intro f hf
    obtain ⟨f', rfl⟩ : ∃ f', f = f' + 1 := ⟨f - 1, by omega⟩
    simp only [Nat.toDigitsCore]
    by_cases h0 : n / 10 = 0
    · rw [if_pos h0]
      have hlt : n < 10 := by omega
      simp [digitsVal, Nat.mod_eq_of_lt hlt, digitVal_digitChar n hlt]
    · rw [if_neg h0]
      have hn : 0 < n := by
        rcases Nat.eq_zero_or_pos n with h | h
        · subst h; simp at h0
        · exact h
      have hdiv : n / 10 < n := Nat.div_lt_self hn (by omega)
      rw [toDigitsCore_shift (n / 10) f' _ (by omega)]
      simp only [digitsVal, List.foldl_append, List.foldl_cons, List.foldl_nil]
      have hrec := ih (n / 10) hdiv f' (by omega)
      simp only [digitsVal] at hrec
      rw [hrec, digitVal_digitChar (n % 10) (Nat.mod_lt _ (by omega))]
      omega

/-- Every character Nat.toDigitsCore produces over its argument is a digit,
never the underscore. -/
theorem toDigitsCore_ne_underscore : ∀ (f n : Nat) (ds : List Char), (∀ c ∈ ds, c ≠ '_') →
    ∀ c ∈ Nat.toDigitsCore 10 f n ds, c ≠ '_' := by
  intro f
  induction f with
  | zero =>
    intro n ds hds c hc
    simp only [Nat.toDigitsCore] at hc
    exact hds c hc
  | succ f ih =>
    intro n ds hds c hc
    simp only [Nat.toDigitsCore] at hc
    have hd : Nat.digitChar (n % 10) ≠ '_' :=
      digitChar_ne_underscore (n % 10) (Nat.mod_lt _ (by omega))
    by_cases h0 : n / 10 = 0
    · rw [if_pos h0] at hc
      rcases List.mem_cons.mp hc with rfl | hc
      · exact hd
      · exact hds c hc
    · rw [if_neg h0] at hc
      refine ih (n / 10) (Nat.digitChar (n % 10) :: ds) ?_ c hc
      intro a ha
      rcases List.mem_cons.mp ha with rfl | ha
      · exact hd
      · exact hds a ha

/-- The character data of a decimal numeral. -/
theorem natRepr_data (n : Nat) : (Nat.repr n).data = Nat.toDigitsCore 10 (n + 1) n [] := rfl

/-- Distinct naturals have distinct decimal numerals (data form). -/
theorem natRepr_data_inj (a b : Nat) (h : (Nat.repr a).data = (Nat.repr b).data) : a = b := by
  rw [natRepr_data, natRepr_data] at h
  calc a = digitsVal (Nat.toDigitsCore 10 (a + 1) a []) :=
        (digitsVal_toDigitsCore a (a + 1) (by omega)).symm
    _ = digitsVal (Nat.toDigitsCore 10 (b + 1) b []) := by rw [h]
    _ = b := digitsVal_toDigitsCore b (b + 1) (by omega)

/-- A decimal numeral contains no underscore. -/
theorem natRepr_ne_underscore (n : Nat) : ∀ c ∈ (Nat.repr n).data, c ≠ '_' := by
  rw [natRepr_data]
  exact toDigitsCore_ne_underscore (n + 1) n [] (by simp)

/-- Splitting at a separator absent from both leading parts is unambiguous. -/
theorem underscore_split : ∀ (a a' b b' : List Char), '_' ∉ a → '_' ∉ a' →
    a ++ '_' :: b = a' ++ '_' :: b' → a = a' ∧ b = b' := by
  intro a
  induction a with
  | nil =>
    intro a' b b' _ ha' h
    cases a' with
    | nil => simpa using h
    | cons c t =>
      simp only [List.nil_append, List.cons_append, List.cons.injEq] at h
      exact absurd (h.1 ▸ List.mem_cons_self c t) ha'
  | cons c ta ih =>
    intro a' b b' ha ha' h
    cases a' with
    | nil =>
      simp only [List.nil_append, List.cons_append, List.cons.injEq] at h
      exact absurd (h.1.symm ▸ List.mem_cons_self c ta) ha
    | cons c' ta' =>
      simp only [List.cons_append, List.cons.injEq] at h
      obtain ⟨rfl, h2⟩ := h
      obtain ⟨h4, h5⟩ := ih ta' b b' (fun hm => ha (List.mem_cons_of_mem _ hm))
        (fun hm => ha' (List.mem_cons_of_mem _ hm)) h2
      exact ⟨by rw [h4], h5⟩

/-- toString on a natural is its decimal numeral. -/
theorem toString_nat (n : Nat) : toString n = Nat.repr n := rfl

/-- For one document (one filename) the chunk id template is injective in the
two ordinals: the numerals contain no underscore, so the underscores uniquely
delimit them. -/
theorem chunkId_inj (filename : String) : ∀ s c s' c' : Nat,
    chunkId filename s c = chunkId filename s' c' → s = s' ∧ c = c' := by
  intro s c s' c' h
  have hd := congrArg String.data h
  have hu : ("_" : String).data = ['_'] := rfl
  simp only [chunkId, toString_nat, String.data_append, hu, List.append_assoc,
    List.singleton_append] at hd
  have h2 := List.append_cancel_left hd
  injection h2 with hhead h3
  obtain ⟨h4, h5⟩ := underscore_split _ _ _ _
    (fun hm => natRepr_ne_underscore s '_' hm rfl)
    (fun hm => natRepr_ne_underscore s' '_' hm rfl) h3
  exact ⟨natRepr_data_inj _ _ h4, natRepr_data_inj _ _ h5⟩

/-- The id sequence pushChunks appends, as a function of the ordinal pairs. -/
theorem pushChunks_map_id (filename title : String) (st : Option String) (sIdx : Nat) :
    ∀ (cs : List String) (cIdx : Nat) (acc : List DocumentChunk),
    (pushChunks filename title st sIdx cs cIdx acc).map (fun ch => ch.id) =
      acc.map (fun ch => ch.id) ++
        (opChunks cs sIdx cIdx).map fun p => chunkId filename p.1 p.2 := by
  intro cs
  induction cs with
  | nil => intro cIdx acc; simp [pushChunks, opChunks]
  | cons c rest ih =>
    intro cIdx acc
    simp only [pushChunks, opChunks]
    by_cases h : 0 < (jsTrim c).length
    · rw [if_pos h, if_pos h, ih]
      simp [List.append_assoc]
    · rw [if_neg h, if_neg h, ih]
      simp

/-- The id sequence buildSections appends, as a function of the ordinal
pairs. -/
theorem buildSections_map_id (filename title : String) :
    ∀ (secs : List String) (sIdx : Nat) (acc : List DocumentChunk),
    (buildSections filename title secs sIdx acc).map (fun ch => ch.id) =
      acc.map (fun ch => ch.id) ++
        (opSections secs sIdx).map fun p => chunkId filename p.1 p.2 := by
  intro secs
  induction secs with
  | nil => intro sIdx acc; simp [buildSections, opSections]
  | cons s rest ih =>
    intro sIdx acc
    simp only [buildSections, opSections]
    rw [ih, pushChunks_map_id]
    simp [List.append_assoc]

/-- The id sequence of createDocumentChunks is the encoding of the document's
ordinal pairs with the filename: a function of the content and the filename
alone. -/
theorem createDocumentChunks_map_id (content filename title : String) :
    (createDocumentChunks content filename title).map (fun ch => ch.id) =
      (ordinalPairs content).map fun p => chunkId filename p.1 p.2 := by
  simp only [createDocumentChunks, ordinalPairs, List.map_map]
  exact buildSections_map_id filename title (splitSections content) 0 []

/-- Claim C5: createDocumentChunks is deterministic (a pure function of its
arguments, so two invocations with identical arguments agree judgmentally),
and its id sequence is derived only from the filename and the (section
ordinal, intra-section chunk ordinal) pairs, which are themselves a function
of the content alone — in particular the ids do not depend on the title. -/
theorem createDocumentChunks_deterministic_ids (content filename title : String) :
    createDocumentChunks content filename title = createDocumentChunks content filename title ∧
      (createDocumentChunks content filename title).map (fun ch => ch.id) =
        (ordinalPairs content).map fun p => chunkId filename p.1 p.2 :=
  ⟨rfl, createDocumentChunks_map_id content filename title⟩

/-- The pairs a section contributes carry its ordinal and increasing chunk
ordinals. -/
theorem opChunks_mem : ∀ (cs : List String) (sIdx cIdx : Nat) (p : Nat × Nat),
    p ∈ opChunks cs sIdx cIdx → p.1 = sIdx ∧ cIdx ≤ p.2 := by
  intro cs
  induction cs with
  | nil => intro _ _ p hp; simp [opChunks] at hp
  | cons c rest ih =>
    intro sIdx cIdx p hp
    simp only [opChunks, List.mem_append] at hp
    rcases hp with hp | hp
    · by_cases h : 0 < (jsTrim c).length
      · rw [if_pos h] at hp
        simp only [List.mem_singleton] at hp
        subst hp
        exact ⟨rfl, le_refl _⟩
      · rw [if_neg h] at hp
        simp at hp
    · have := ih sIdx (cIdx + 1) p hp
      exact ⟨this.1, by omega⟩

/-- The pairs of one section are pairwise distinct. -/
theorem opChunks_nodup : ∀ (cs : List String) (sIdx cIdx : Nat),
    (opChunks cs sIdx cIdx).Nodup := by
  intro cs
  induction cs with
  | nil => intro sIdx cIdx; simp [opChunks]
  | cons c rest ih =>
    intro sIdx cIdx
    simp only [opChunks]
    by_cases h : 0 < (jsTrim c).length
    · rw [if_pos h]
      simp only [List.singleton_append, List.nodup_cons]
      refine ⟨fun hmem => ?_, ih sIdx (cIdx + 1)⟩
      have := (opChunks_mem rest sIdx (cIdx + 1) _ hmem).2
      omega
    · rw [if_neg h]
      simpa using ih sIdx (cIdx + 1)

/-- Every pair of a section suffix carries a section ordinal at least the
current one. -/
theorem opSections_mem : ∀ (secs : List String) (sIdx : Nat) (p : Nat × Nat),
    p ∈ opSections secs sIdx → sIdx ≤ p.1 := by
  intro secs
  induction secs with
  | nil => intro _ p hp; simp [opSections] at hp
  | cons s rest ih =>
    intro sIdx p hp
    simp only [opSections, List.mem_append] at hp
    rcases hp with hp | hp
    · exact le_of_eq (opChunks_mem _ _ _ _ hp).1.symm
    · have := ih (sIdx + 1) p hp
      omega

/-- The ordinal pairs of a document are pairwise distinct. -/
theorem opSections_nodup : ∀ (secs : List String) (sIdx : Nat), (opSections secs sIdx).Nodup := by
  intro secs
  induction secs with
  | nil => intro sIdx; simp [opSections]
  | cons s rest ih =>
    intro sIdx
    simp only [opSections]
    refine List.Nodup.append (opChunks_nodup _ _ _) (ih (sIdx + 1)) ?_
    intro p hp1 hp2
    have h1 := (opChunks_mem _ _ _ _ hp1).1
    have h2 := opSections_mem _ _ _ hp2
    omega

/-- Claim C10: the chunk ids of one document are pairwise distinct: each id
combines the filename with the section ordinal and the intra-section
ordinal, and the ordinal pairs are distinct, so no two chunks of a document
share an id (and no vector record overwrites a sibling on upsert). -/
theorem createDocumentChunks_ids_nodup (content filename title : String) :
    ((createDocumentChunks content filename title).map fun ch => ch.id).Nodup := by
  rw [createDocumentChunks_map_id]
  refine List.Nodup.map ?_ (opSections_nodup _ _)
  intro p q h
  obtain ⟨h1, h2⟩ := chunkId_inj filename p.1 p.2 q.1 q.2 h
  exact Prod.ext h1 h2

/-- Pieces of a character split never contain the separator. -/
theorem mem_splitChars_ne_sep (sep : Char) : ∀ (l acc : List Char), sep ∉ acc →
    ∀ p ∈ splitChars sep l acc, sep ∉ p := by
  intro l
  induction l with
  | nil =>
    intro acc hacc p hp
    simp only [splitChars, List.mem_singleton] at hp
    subst hp
    simpa using hacc
  | cons c rest ih =>
    intro acc hacc p hp
    simp only [splitChars] at hp
    by_cases hc : c = sep
    · rw [if_pos hc] at hp
      rcases List.mem_cons.mp hp with rfl | hp
      · simpa using hacc
      · exact ih [] (by simp) p hp
    · rw [if_neg hc] at hp
      refine ih (c :: acc) ?_ p hp
      intro hm
      rcases List.mem_cons.mp hm with h | h
      · exact hc h.symm
      · exact hacc h

/-- Splitting a separator-free list yields a single piece. -/
theorem splitChars_of_not_mem (sep : Char) : ∀ (u acc : List Char), sep ∉ u →
    splitChars sep u acc = [acc.reverse ++ u] := by
  intro u
  induction u with
  | nil => intro acc _; simp [splitChars]
  | cons c rest ih =>
    intro acc hu
    have hc : ¬ c = sep := by intro h; exact hu (by simp [h])
    simp only [splitChars, if_neg hc]
    rw [ih (c :: acc) (fun hm => hu (List.mem_cons_of_mem _ hm))]
    simp

/-- Splitting peels one separator-free piece before the first separator. -/
theorem splitChars_append_sep (sep : Char) : ∀ (u rest acc : List Char), sep ∉ u →
    splitChars sep (u ++ sep :: rest) acc = (acc.reverse ++ u) :: splitChars sep rest [] := by
  intro u
  induction u with
  | nil =>
    intro rest acc _
    simp [splitChars]
  | cons c u' ih =>
    intro rest acc hu
    have hc : ¬ c = sep := by intro h; exact hu (by simp [h])
    simp only [List.cons_append, splitChars, if_neg hc, List.append_eq]
    rw [ih rest (c :: acc) (fun hm => hu (List.mem_cons_of_mem _ hm))]
    simp

/-- Splitting on spaces is a left inverse of joining with single spaces, for
nonempty lists of space-free words. -/
theorem jsSplit_jsJoin : ∀ (ws : List String), ws ≠ [] → (∀ w ∈ ws, ' ' ∉ w.data) →
    jsSplitOnSpace (jsJoin " " ws) = ws := by
  intro ws
  induction ws with
  | nil => intro h; exact absurd rfl h
  | cons w tail ih =>
    intro _ hsp
    cases tail with
    | nil =>
      simp only [jsJoin, jsSplitOnSpace]
      rw [splitChars_of_not_mem ' ' w.data [] (hsp w (by simp))]
      simp only [List.map_cons, List.map_nil, List.reverse_nil, List.nil_append]
    | cons y ys =>
      have hsep : (" " : String).data = [' '] := rfl
      have hdata : (w ++ " " ++ jsJoin " " (y :: ys)).data
          = w.data ++ ' ' :: (jsJoin " " (y :: ys)).data := by
        simp [String.data_append, hsep]
      show jsSplitOnSpace (w ++ " " ++ jsJoin " " (y :: ys)) = w :: y :: ys
      simp only [jsSplitOnSpace]
      rw [hdata, splitChars_append_sep ' ' w.data _ [] (hsp w (by simp))]
      simp only [List.map_cons, List.reverse_nil, List.nil_append]
      have htail : (splitChars ' ' (jsJoin " " (y :: ys)).data []).map (fun cs => String.mk cs)
          = y :: ys := ih (by simp) (fun v hv => hsp v (List.mem_cons_of_mem _ hv))
      rw [htail]

/-- Words produced by splitting on spaces contain no space. -/
theorem mem_jsSplitOnSpace_no_space (text : String) :
    ∀ w ∈ jsSplitOnSpace text, ' ' ∉ w.data := by
  intro w hw
  simp only [jsSplitOnSpace, List.mem_map] at hw
  obtain ⟨p, hp, rfl⟩ := hw
  exact mem_splitChars_ne_sep ' ' text.data [] (by simp) p hp

/-- The chunk loop is the window loop followed by joining each window. -/
theorem chunkTextLoop_eq_map (words : List String) (chunkSize step : Nat) :
    ∀ (fuel i : Nat), chunkTextLoop words chunkSize step i fuel =
      (wordWindows words chunkSize step i fuel).map (jsJoin " ") := by
  intro fuel
  induction fuel with
  | zero => intro i; rfl
  | succ f ih =>
    intro i
    simp only [chunkTextLoop, wordWindows]
    by_cases h1 : words.length ≤ i
    · simp [h1]
    · by_cases h2 : words.length ≤ i + chunkSize
      · simp [h1, h2]
      · simp [h1, h2, ih]

/-- A window list starting inside the words is nonempty. -/
theorem wordWindows_ne_nil (words : List String) (chunkSize step : Nat) (i fuel : Nat)
    (hi : i < words.length) (hfuel : 0 < fuel) :
    wordWindows words chunkSize step i fuel ≠ [] := by
  obtain ⟨f, rfl⟩ : ∃ f, fuel = f + 1 := ⟨fuel - 1, by omega⟩
  simp only [wordWindows]
  rw [if_neg (by omega)]
  by_cases h2 : words.length ≤ i + chunkSize
  · simp [h2]
  · simp [h2]

/-- The first window starts at the current index. -/
theorem wordWindows_head (words : List String) (chunkSize step : Nat) (i fuel : Nat)
    (hi : i < words.length) (hfuel : 0 < fuel) :
    ∃ t, wordWindows words chunkSize step i fuel = ((words.drop i).take chunkSize) :: t := by
  obtain ⟨f, rfl⟩ : ∃ f, fuel = f + 1 := ⟨fuel - 1, by omega⟩
  simp only [wordWindows]
  rw [if_neg (by omega)]
  by_cases h2 : words.length ≤ i + chunkSize
  · exact ⟨[], by rw [if_pos h2]⟩
  · exact ⟨_, by rw [if_neg h2]⟩

/-- Every window is a contiguous slice of the word list starting inside it. -/
theorem wordWindows_shape (words : List String) (chunkSize step : Nat) :
    ∀ (fuel i : Nat) (w : List String), w ∈ wordWindows words chunkSize step i fuel →
      ∃ j, j < words.length ∧ w = (words.drop j).take chunkSize := by
  intro fuel
  induction fuel with
  | zero => intro i w hw; simp [wordWindows] at hw
  | succ f ih =>
    intro i w hw
    simp only [wordWindows] at hw
    by_cases h1 : words.length ≤ i
    · rw [if_pos h1] at hw; simp at hw
    · rw [if_neg h1] at hw
      by_cases h2 : words.length ≤ i + chunkSize
      · rw [if_pos h2] at hw
        simp only [List.mem_singleton] at hw
        exact ⟨i, by omega, hw⟩
      · rw [if_neg h2] at hw
        rcases List.mem_cons.mp hw with rfl | hw
        · exact ⟨i, by omega, rfl⟩
        · exact ih (i + step) w hw

/-- Every window with a successor has exactly chunkSize words, and its last
ov words are the first ov words of the next window, for step + ov =
chunkSize. -/
theorem wordWindows_consecutive (words : List String) (chunkSize step ov : Nat)
    (hstep : 0 < step) (hso : step + ov = chunkSize) :
    ∀ (fuel i : Nat), i < words.length → words.length - i ≤ fuel →
      ∀ (j : Nat) (w₁ w₂ : List String),
        (wordWindows words chunkSize step i fuel)[j]? = some w₁ →
        (wordWindows words chunkSize step i fuel)[j + 1]? = some w₂ →
        w₁.length = chunkSize ∧ w₁.drop step = w₂.take ov := by
  intro fuel
  induction fuel with
  | zero => intro i hi hf; exfalso; omega
  | succ f ih =>
    intro i hi hf j w₁ w₂ h1 h2
    simp only [wordWindows] at h1 h2
    rw [if_neg (by omega : ¬ words.length ≤ i)] at h1 h2
    by_cases hlast : words.length ≤ i + chunkSize
    · rw [if_pos hlast] at h2
      rw [List.getElem?_eq_none (by simp)] at h2
      cases h2
    · rw [if_neg hlast] at h1 h2
      have hi2 : i + step < words.length := by omega
      have hf2 : 0 < f := by omega
      cases j with
      | zero =>
        rw [List.getElem?_cons_zero] at h1
        injection h1 with h1
        subst h1
        simp only [List.getElem?_cons_succ] at h2
        obtain ⟨t, ht⟩ := wordWindows_head words chunkSize step (i + step) f hi2 hf2
        rw [ht, List.getElem?_cons_zero] at h2
        injection h2 with h2
        subst h2
        constructor
        · simp only [List.length_take, List.length_drop]
          omega
        · rw [List.drop_take, List.drop_drop, List.take_take]
          congr 1
          omega
      | succ jj =>
        simp only [List.getElem?_cons_succ] at h1 h2
        exact ih (i + step) (by omega) (by omega) jj w₁ w₂ h1 h2

/-- When the loop does not stop at the current window, the final window has
strictly more than ov words: the trailing chunk is neither empty nor a
duplicate of the overlap. -/
theorem wordWindows_last (words : List String) (chunkSize step ov : Nat)
    (hstep : 0 < step) (hso : step + ov = chunkSize) :
    ∀ (fuel i : Nat), i < words.length → words.length - i ≤ fuel →
      i + chunkSize < words.length →
      ∀ w, (wordWindows words chunkSize step i fuel).getLast? = some w →
        ov < w.length := by
  intro fuel
  induction fuel with
  | zero => intro i hi hf; exfalso; omega
  | succ f ih =>
    intro i hi hf hlast w hw
    simp only [wordWindows] at hw
    rw [if_neg (by omega), if_neg (by omega : ¬ words.length ≤ i + chunkSize)] at hw
    have hi2 : i + step < words.length := by omega
    have hf2 : 0 < f := by omega
    obtain ⟨t, ht⟩ := wordWindows_head words chunkSize step (i + step) f hi2 hf2
    rw [ht, List.getLast?_cons_cons, ← ht] at hw
    by_cases hlast2 : i + step + chunkSize < words.length
    · exact ih (i + step) hi2 (by omega) hlast2 w hw
    · obtain ⟨f', rfl⟩ : ∃ f', f = f' + 1 := ⟨f - 1, by omega⟩
      have hsingle : wordWindows words chunkSize step (i + step) (f' + 1)
          = [(words.drop (i + step)).take chunkSize] := by
        simp only [wordWindows]
        rw [if_neg (by omega), if_pos (by omega)]
      rw [hsingle] at hw
      simp only [List.getLast?_singleton] at hw
      injection hw with hw
      subst hw
      simp only [List.length_take, List.length_drop]
      omega

/-- Dropping the overlap from every window after the first and concatenating
reconstructs the words from the current index on: the windows cover the text
exactly, ending at the last word. -/
theorem wordWindows_stitch (words : List String) (chunkSize step ov : Nat)
    (hstep : 0 < step) (hso : step + ov = chunkSize) :
    ∀ (fuel i : Nat), i < words.length → words.length - i ≤ fuel →
      (wordWindows words chunkSize step i fuel).headD [] ++
        (((wordWindows words chunkSize step i fuel).tail).map (List.drop ov)).flatten =
        words.drop i := by
  intro fuel
  induction fuel with
  | zero => intro i hi hf; exfalso; omega
  | succ f ih =>
    intro i hi hf
    simp only [wordWindows]
    rw [if_neg (by omega)]
    by_cases hlast : words.length ≤ i + chunkSize
    · rw [if_pos hlast]
      simp only [List.headD_cons, List.tail_cons, List.map_nil, List.flatten_nil,
        List.append_nil]
      exact List.take_of_length_le (by rw [List.length_drop]; omega)
    · rw [if_neg hlast]
      have hi2 : i + step < words.length := by omega
      have hf2 : 0 < f := by omega
      simp only [List.headD_cons, List.tail_cons]
      obtain ⟨t, ht⟩ := wordWindows_head words chunkSize step (i + step) f hi2 hf2
      have hIH := ih (i + step) hi2 (by omega)
      rw [ht] at hIH
      simp only [List.headD_cons, List.tail_cons] at hIH
      rw [ht]
      simp only [List.map_cons, List.flatten_cons]
      have hlen2 : ov ≤ ((words.drop (i + step)).take chunkSize).length := by
        simp only [List.length_take, List.length_drop]
        omega
      have hkey : ((words.drop (i + step)).take chunkSize).drop ov ++
          (t.map (List.drop ov)).flatten = words.drop (i + chunkSize) := by
        have hdropped := congrArg (List.drop ov) hIH
        rw [List.drop_append_of_le_length hlen2] at hdropped
        rw [hdropped, List.drop_drop]
        congr 1
        omega
      rw [hkey]
      have hsplit : words.drop (i + chunkSize) = ((words.drop i).drop chunkSize) := by
        rw [List.drop_drop]
      rw [hsplit, List.take_append_drop]

/-- Claim C1: for word count strictly above chunkSize and overlap below
chunkSize, every chunk of chunkText except possibly the last has exactly
chunkSize words, each pair of consecutive chunks shares exactly overlap
words at the boundary (the last overlap words of one chunk are the first
overlap words of the next), the final chunk strictly extends past the
overlap (no empty and no duplicate trailing chunk), the chunks reconstruct
the full word list exactly (so the final chunk ends at the last word), and
the concrete example chunks as the spec states. -/
theorem chunkText_overlap_windows (text : String) (chunkSize overlap : Nat)
    (hov : overlap < chunkSize) (hlen : chunkSize < (jsSplitOnSpace text).length) :
    (∀ (j : Nat) (c₁ c₂ : String),
        (chunkText text chunkSize overlap)[j]? = some c₁ →
        (chunkText text chunkSize overlap)[j + 1]? = some c₂ →
        (jsSplitOnSpace c₁).length = chunkSize ∧
          (jsSplitOnSpace c₁).drop (chunkSize - overlap) = (jsSplitOnSpace c₂).take overlap) ∧
      (∀ c, (chunkText text chunkSize overlap).getLast? = some c →
        overlap < (jsSplitOnSpace c).length) ∧
      jsSplitOnSpace text =
        jsSplitOnSpace ((chunkText text chunkSize overlap).headD "") ++
          (((chunkText text chunkSize overlap).tail).map
            fun c => (jsSplitOnSpace c).drop overlap).flatten ∧
      chunkText "one two three four five" 3 1 = ["one two three", "three four five"] := by
  have hstep : 0 < chunkSize - overlap := by omega
  have hso : (chunkSize - overlap) + overlap = chunkSize := by omega
  have hchunk : chunkText text chunkSize overlap =
      (wordWindows (jsSplitOnSpace text) chunkSize (chunkSize - overlap) 0
        (jsSplitOnSpace text).length).map (jsJoin " ") := by
    simp only [chunkText]
    rw [if_neg (by omega)]
    exact chunkTextLoop_eq_map _ _ _ _ _
  have hwin : ∀ w ∈ wordWindows (jsSplitOnSpace text) chunkSize (chunkSize - overlap) 0
      (jsSplitOnSpace text).length, jsSplitOnSpace (jsJoin " " w) = w := by
    intro w hw
    obtain ⟨j, hj, rfl⟩ := wordWindows_shape _ _ _ _ _ _ hw
    refine jsSplit_jsJoin _ ?_ ?_
    · refine List.ne_nil_of_length_pos ?_
      simp only [List.length_take, List.length_drop]
      omega
    · intro x hx
      exact mem_jsSplitOnSpace_no_space text x
        (List.drop_subset _ _ (List.take_subset _ _ hx))
  refine ⟨?_, ?_, ?_, by decide⟩
  · intro j c₁ c₂ h1 h2
    rw [hchunk, List.getElem?_map] at h1 h2
    obtain ⟨w₁, hw1, rfl⟩ := Option.map_eq_some'.mp h1
    obtain ⟨w₂, hw2, rfl⟩ := Option.map_eq_some'.mp h2
    rw [hwin w₁ (List.getElem?_mem hw1), hwin w₂ (List.getElem?_mem hw2)]
    exact wordWindows_consecutive (jsSplitOnSpace text) chunkSize (chunkSize - overlap)
      overlap hstep hso _ 0 (by omega) (by omega) j w₁ w₂ hw1 hw2
  · intro c hc
    rw [hchunk, List.getLast?_map] at hc
    obtain ⟨w, hw, rfl⟩ := Option.map_eq_some'.mp hc
    rw [hwin w (List.mem_of_getLast?_eq_some hw)]
    exact wordWindows_last (jsSplitOnSpace text) chunkSize (chunkSize - overlap) overlap
      hstep hso _ 0 (by omega) (by omega) (by omega) w hw
  · obtain ⟨t, ht⟩ := wordWindows_head (jsSplitOnSpace text) chunkSize (chunkSize - overlap)
      0 (jsSplitOnSpace text).length (by omega) (by omega)
    rw [hchunk, ht]
    simp only [List.map_cons, List.headD_cons, List.tail_cons]
    rw [List.map_map]
    rw [hwin _ (by rw [ht]; exact List.mem_cons_self _ _)]
    have hmap : t.map ((fun c => (jsSplitOnSpace c).drop overlap) ∘ jsJoin " ")
        = t.map (List.drop overlap) := by
      refine List.map_congr_left fun w hwmem => ?_
      have hr := hwin w (by rw [ht]; exact List.mem_cons_of_mem _ hwmem)
      simp only [Function.comp_apply]
      rw [hr]
    rw [hmap]
    have hstitch := wordWindows_stitch (jsSplitOnSpace text) chunkSize (chunkSize - overlap)
      overlap hstep hso (jsSplitOnSpace text).length 0 (by omega) (by omega)
    rw [ht] at hstitch
    simp only [List.headD_cons, List.tail_cons, List.drop_zero] at hstitch
    exact hstitch.symm

/-- Witness for claim C1 at the spec's concrete example. -/
theorem chunkText_overlap_windows_witness :
    1 < 3 ∧ 3 < (jsSplitOnSpace "one two three four five").length ∧
      chunkText "one two three four five" 3 1 = ["one two three", "three four five"] :=
  ⟨by decide, by decide,
    (chunkText_overlap_windows "one two three four five" 3 1 (by decide) (by decide)).2.2.2⟩

end OnCall
